import Mathlib

/-!
Verification of cargo-multiarch against its specification.

This file gives a shallow embedding, in Lean 4, of the parts of the
cargo-multiarch sources that the specification claims talk about:

* the runtime dispatcher of the fat binary
  (src/multiarch-dispatch/src/binary_flavors.rs and
  src/multiarch-dispatch/src/binary_flavors/features_x86.rs):
  host-feature filtering, the x86 ranking fold, index selection,
  and variant reconstruction;
* the build script of the dispatcher (src/multiarch-dispatch/build.rs):
  fallback popping, patch generation and the generated FatBin table;
* the variant policy resolver (src/cargo_config_loader.rs) together with
  its call site in src/compile_multiarch.rs: metadata loading, CLI
  overrides, CPU-model expansion;
* the per-variant scratch-file naming and the digest-based deduplication
  of src/compile_multiarch.rs.

Sets backed by BTreeSet in the sources are modelled as lists in canonical
(sorted, deduplicated) order; 32-byte SHA-256 digests are modelled by
their numeric value (comparison of [u8; 32] is lexicographic, which is
the numeric order of the big-endian value); byte strings are lists of
naturals.  External crates (qbsdiff, zstd, rustc queries, the exec
syscalls) are modelled as explicit function parameters, so that theorems
can state exactly which contracts of those crates they rely on.
-/

namespace Multiarch

/-! ## Lexicographic comparison of Rust tuples

Rust compares tuples lexicographically; `features_x86.rs` compares
`(level, weight)` pairs and `(level, weight, count)` triples with `>`.
-/

/-- Lexicographic strict order on pairs of naturals, as Rust's `Ord` for
`(usize, usize)`. -/
def pairLt (x y : Nat × Nat) : Prop :=
  x.1 < y.1 ∨ (x.1 = y.1 ∧ x.2 < y.2)

instance (x y : Nat × Nat) : Decidable (pairLt x y) := by
  unfold pairLt; infer_instance

/-- Lexicographic strict order on triples of naturals, as Rust's `Ord` for
`(usize, usize, usize)`. -/
def tripleLt (x y : Nat × Nat × Nat) : Prop :=
  x.1 < y.1 ∨ (x.1 = y.1 ∧ pairLt x.2 y.2)

instance (x y : Nat × Nat × Nat) : Decidable (tripleLt x y) := by
  unfold tripleLt; infer_instance

theorem tripleLt_irrefl (x : Nat × Nat × Nat) : ¬ tripleLt x x := by
  rcases x with ⟨a, b, c⟩
  simp [tripleLt, pairLt]

theorem tripleLt_trichotomy (x y : Nat × Nat × Nat) :
    tripleLt x y ∨ x = y ∨ tripleLt y x := by
  rcases x with ⟨a, b, c⟩
  rcases y with ⟨d, e, f⟩
  simp only [tripleLt, pairLt, Prod.mk.injEq]
  omega

theorem not_tripleLt_zero (x : Nat × Nat × Nat) : ¬ tripleLt x (0, 0, 0) := by
  rcases x with ⟨a, b, c⟩
  simp [tripleLt, pairLt]

theorem tripleLt_trans {x y z : Nat × Nat × Nat}
    (hxy : tripleLt x y) (hyz : tripleLt y z) : tripleLt x z := by
  rcases x with ⟨a, b, c⟩
  rcases y with ⟨d, e, f⟩
  rcases z with ⟨g, h, i⟩
  simp only [tripleLt, pairLt] at *
  omega

/-! ## The x86 ranking table

The static `phf` table `RANKING` of
src/multiarch-dispatch/src/binary_flavors/features_x86.rs, mapping a
feature token to its `(level, weight)` pair. -/

/-- The `RANKING` table: `Rank { level, weight }` per feature token,
`none` for tokens absent from the table. -/
def RANKING : String → Option (Nat × Nat)
  | "sse3" => some (2, 1)
  | "ssse3" => some (2, 2)
  | "sse4.1" => some (2, 3)
  | "popcnt" => some (2, 4)
  | "sse4.2" => some (2, 5)
  | "avx" => some (3, 1)
  | "avx2" => some (3, 2)
  | "lzcnt" => some (3, 2)
  | "bmi" => some (3, 2)
  | "bmi2" => some (3, 2)
  | "avx512f" => some (4, 1)
  | "avx512cd" => some (4, 1)
  | "avx512vl" => some (4, 2)
  | "avx512dq" => some (4, 2)
  | "avx512bw" => some (4, 2)
  | _ => none

/-- Every entry of the `RANKING` table has a level of at least 2, so a
ranked token never maps to the fold's initial `(0, 0)` pair. -/
theorem RANKING_level_pos {t : String} {lw : Nat × Nat}
    (h : RANKING t = some lw) : 2 ≤ lw.1 := by
  unfold RANKING at h
  split at h <;> first
    | (injection h with h2; subst h2; decide)
    | simp at h

/-! ## The per-variant fold of `get_top_ranked`

The inner fold of `FatBin::get_top_ranked`
(features_x86.rs lines 66-81): fold a variant's tokens into
`(bin_level, bin_weight, bin_count)` starting from `(0, 0, 0)`.  Note
that all three branches of the ranked case return the current token's
`(level, weight)` — in particular the final branch (line 76) overwrites
the running pair with a strictly lower-ranked token's pair, keeping the
count — so the accumulated pair is that of the last ranked token, not
the running maximum, and the fold is order-dependent. -/

/-- One step of the inner fold of `get_top_ranked`: a token found in the
table replaces the accumulated `(level, weight)` with its own pair and
resets, increments, or carries the count according to the comparison; an
unranked token leaves the accumulator unchanged. -/
def binRankStep (acc : Nat × Nat × Nat) (feature : String) : Nat × Nat × Nat :=
  match RANKING feature with
  | some (level, weight) =>
    if pairLt (acc.1, acc.2.1) (level, weight) then (level, weight, 1)
    else if (level, weight) = (acc.1, acc.2.1) then (level, weight, acc.2.2 + 1)
    else (level, weight, acc.2.2)
  | none => acc

/-- The inner fold of `get_top_ranked`: `(bin_level, bin_weight, bin_count)`
for one variant's feature list. -/
def binRank (feats : List String) : Nat × Nat × Nat :=
  feats.foldl binRankStep (0, 0, 0)

/-! ## The outer fold of `get_top_ranked`

features_x86.rs lines 63-89: fold over the enumerated retained feature
lists, starting from `(-1isize, 0, 0, 0)`, replacing the accumulator
whenever the variant's triple is strictly greater (Rust tuple `>`). -/

/-- One step of the outer fold of `get_top_ranked`. -/
def topRankStep (acc : Int × (Nat × Nat × Nat)) (p : Nat × List String) :
    Int × (Nat × Nat × Nat) :=
  if tripleLt acc.2 (binRank p.2) then ((p.1 : Int), binRank p.2) else acc

/-- The full accumulator of `get_top_ranked`'s outer fold. -/
def topRankFold (ls : List (List String)) : Int × (Nat × Nat × Nat) :=
  ls.enum.foldl topRankStep (-1, (0, 0, 0))

/-- Model of `FatBin::get_top_ranked` (features_x86.rs lines 61-90): the index of
the top ranked feature list, `-1` when nothing beats the initial
accumulator. -/
def getTopRanked (ls : List (List String)) : Int :=
  (topRankFold ls).1

/-! ## Filtering and selection

`FlavorsRank::get_supported_binaries` and
`FlavorsRank::get_best_flavor_id` (binary_flavors.rs lines 49-76).
The host feature set is a parameter (the `notstd_detect` crate's CPUID
probe is external to the repository). -/

/-- Model of `get_supported_binaries`: keep the enumerated entries all of whose
tokens are host features, and unzip into (indices, feature lists). -/
def getSupportedBinaries (host : List String) (ls : List (List String)) :
    List Nat × List (List String) :=
  (ls.enum.filter (fun p => p.2.all (fun t => host.contains t))).unzip

/-- Model of `get_best_flavor_id` (binary_flavors.rs lines 67-76).  `Except.error ()`
models the out-of-bounds panic of `indices[top_compatible_index as usize]`
when `get_top_ranked` returned `-1` (Rust's `-1 as usize` is `usize::MAX`,
always out of bounds). -/
def getBestFlavorId (host : List String) (ls : List (List String)) :
    Except Unit (Option Nat) :=
  let sup := getSupportedBinaries host ls
  if sup.1.length = 0 then .ok none
  else
    let top := getTopRanked sup.2
    if h : 0 ≤ top ∧ top.toNat < sup.1.length then
      .ok (some (sup.1.get ⟨top.toNat, h.2⟩))
    else .error ()

/-! ## Specification-side ranking functions

The following definitions follow the words of the specification
(section 4.6.3) rather than the source, to be compared with the fold
above: maximum level among a variant's ranked tokens, maximum weight at
that level, number of tokens attaining that maximum, and the
largest-wins / earliest-on-tie comparison of variants. -/

/-- Maximum of a list of naturals, 0 for the empty list. -/
def maxNat (l : List Nat) : Nat := l.foldr max 0

/-- The `(level, weight)` pairs of a variant's ranked tokens. -/
def rankedPairs (feats : List String) : List (Nat × Nat) :=
  feats.filterMap RANKING

/-- Modelled from the spec: the maximum table level among a variant's
tokens (tokens absent from the table contribute nothing). -/
def specLevel (feats : List String) : Nat :=
  maxNat ((rankedPairs feats).map Prod.fst)

/-- Modelled from the spec: the maximum weight among the variant's tokens
at level `specLevel`. -/
def specWeight (feats : List String) : Nat :=
  maxNat (((rankedPairs feats).filter (fun p => p.1 = specLevel feats)).map Prod.snd)

/-- Modelled from the spec: the number of tokens attaining
`(specLevel, specWeight)`. -/
def specCount (feats : List String) : Nat :=
  ((rankedPairs feats).filter (fun p => p = (specLevel feats, specWeight feats))).length

/-- Modelled from the spec: the triple the claim says the fold produces —
maximum level, maximum weight at that level, number of tokens attaining
that pair. -/
def specTriple (feats : List String) : Nat × Nat × Nat :=
  (specLevel feats, specWeight feats, specCount feats)

/-- One step of the inner fold restated on the sequence of ranked
`(level, weight)` pairs alone: the current pair always replaces the
accumulated pair, and the count is reset to 1 on a strict ascent,
incremented on equality, and carried otherwise. -/
def pairSeqStep (acc : (Nat × Nat) × Nat) (p : Nat × Nat) : (Nat × Nat) × Nat :=
  if pairLt acc.1 p then (p, 1)
  else if p = acc.1 then (p, acc.2 + 1)
  else (p, acc.2)

/-- The inner fold's behaviour on the extracted ranked-pair sequence. -/
def pairSeqFold (ps : List (Nat × Nat)) : (Nat × Nat) × Nat :=
  ps.foldl pairSeqStep ((0, 0), 0)

/-- The lexicographically largest `(bin_level, bin_weight, bin_count)`
triple among the variants, starting from `(0, 0, 0)`. -/
def bestTriple (ls : List (List String)) : Nat × Nat × Nat :=
  ls.foldl (fun m fs => if tripleLt m (binRank fs) then binRank fs else m) (0, 0, 0)

/-- Index of the first variant whose fold triple equals `t`. -/
def firstIdxOf? (t : Nat × Nat × Nat) : List (List String) → Option Nat
  | [] => none
  | fs :: rest =>
    if binRank fs = t then some 0 else (firstIdxOf? t rest).map (· + 1)

/-- The lexicographically largest claimed (spec) triple among the
variants, starting from `(0, 0, 0)`. -/
def bestSpecTriple (ls : List (List String)) : Nat × Nat × Nat :=
  ls.foldl (fun m fs => if tripleLt m (specTriple fs) then specTriple fs else m)
    (0, 0, 0)

/-- Index of the first variant whose claimed (spec) triple equals `t`. -/
def firstSpecIdxOf? (t : Nat × Nat × Nat) : List (List String) → Option Nat
  | [] => none
  | fs :: rest =>
    if specTriple fs = t then some 0 else (firstSpecIdxOf? t rest).map (· + 1)

/-- Modelled from the spec: the ranking of section 4.6.3 as claimed —
each variant is scored by the claimed triple (max level, max weight at
that level, count attaining it), the largest triple wins, ties are broken
in favor of the earliest variant; `-1` only for an empty list. -/
def claimedTop (ls : List (List String)) : Int :=
  match firstSpecIdxOf? (bestSpecTriple ls) ls with
  | some i => (i : Int)
  | none => -1

/-- The amended ranking: the variants are compared by the triples the
source fold actually computes (`binRank`), the largest winning and ties
going to the earliest variant — except that a variant whose fold triple
is `(0, 0, 0)` (no ranked token) never wins, because the outer fold's
initial accumulator `(-1, (0, 0, 0))` is only replaced by a strictly
greater triple; if no variant's triple exceeds `(0, 0, 0)` the result is
`-1`. -/
def amendedTop (ls : List (List String)) : Int :=
  if bestTriple ls = (0, 0, 0) then -1
  else
    match firstIdxOf? (bestTriple ls) ls with
    | some i => (i : Int)
    | none => -1

/-! ## Properties of the inner fold -/

theorem binRank_nil : binRank [] = (0, 0, 0) := rfl

theorem binRank_snoc (fs : List String) (t : String) :
    binRank (fs ++ [t]) = binRankStep (binRank fs) t := by
  simp [binRank, List.foldl_append]

theorem rankedPairs_snoc (fs : List String) (t : String) :
    rankedPairs (fs ++ [t]) = rankedPairs fs ++ (RANKING t).toList := by
  rcases hR : RANKING t with _ | p <;>
    simp [rankedPairs, List.filterMap_append, List.filterMap_cons, hR]

theorem pairSeqFold_snoc (ps : List (Nat × Nat)) (p : Nat × Nat) :
    pairSeqFold (ps ++ [p]) = pairSeqStep (pairSeqFold ps) p := by
  simp [pairSeqFold, List.foldl_append]

/-- Every branch of `pairSeqStep` returns the incoming pair, so the pair
component of the fold is the last ranked pair (or `(0, 0)` when there is
none). -/
theorem pairSeqFold_fst (ps : List (Nat × Nat)) :
    (pairSeqFold ps).1 = ps.getLast?.getD (0, 0) := by
  induction ps using List.reverseRecOn with
  | nil => rfl
  | append_singleton ps p ih =>
    rw [pairSeqFold_snoc]
    unfold pairSeqStep
    split
    · simp [List.getLast?_concat]
    split
    · simp [List.getLast?_concat]
    · simp [List.getLast?_concat]

/-- The inner fold of `get_top_ranked` ignores unranked tokens and acts
on the sequence of ranked `(level, weight)` pairs by the `pairSeqStep`
recurrence. -/
theorem binRank_eq_pairSeqFold (fs : List String) :
    binRank fs =
      ((pairSeqFold (rankedPairs fs)).1.1, (pairSeqFold (rankedPairs fs)).1.2,
        (pairSeqFold (rankedPairs fs)).2) := by
  induction fs using List.reverseRecOn with
  | nil => rfl
  | append_singleton fs t ih =>
    rw [binRank_snoc, ih, rankedPairs_snoc]
    rcases hR : RANKING t with _ | p
    · simp [binRankStep, hR]
    · simp only [Option.toList_some]
      rw [pairSeqFold_snoc]
      rcases p with ⟨l, w⟩
      have hpair : ((pairSeqFold (rankedPairs fs)).1.1,
          (pairSeqFold (rankedPairs fs)).1.2) = (pairSeqFold (rankedPairs fs)).1 := rfl
      simp only [binRankStep, hR, pairSeqStep, hpair]
      by_cases h1 : pairLt (pairSeqFold (rankedPairs fs)).1 (l, w)
      · simp [h1]
      · simp only [if_neg h1]
        by_cases h2 : ((l : Nat), (w : Nat)) = (pairSeqFold (rankedPairs fs)).1
        · simp only [if_pos h2]
        · simp only [if_neg h2]

/-! ## Properties of the outer fold -/

theorem bestTriple_snoc (ls : List (List String)) (fs : List String) :
    bestTriple (ls ++ [fs]) =
      if tripleLt (bestTriple ls) (binRank fs) then binRank fs
      else bestTriple ls := by
  simp [bestTriple, List.foldl_append]

theorem not_bestTriple_lt_mem {ls : List (List String)} {fs : List String}
    (h : fs ∈ ls) : ¬ tripleLt (bestTriple ls) (binRank fs) := by
  induction ls using List.reverseRecOn with
  | nil => cases h
  | append_singleton ls g ih =>
    rw [bestTriple_snoc]
    rcases List.mem_append.mp h with h2 | h2
    · split
      · rename_i hlt
        intro h3
        exact ih h2 (tripleLt_trans hlt h3)
      · exact ih h2
    · have hg : fs = g := by simpa using h2
      subst hg
      split
      · exact tripleLt_irrefl _
      · assumption

theorem bestTriple_attained {ls : List (List String)}
    (h : bestTriple ls ≠ (0, 0, 0)) : ∃ fs ∈ ls, binRank fs = bestTriple ls := by
  induction ls using List.reverseRecOn with
  | nil => exact absurd rfl h
  | append_singleton ls g ih =>
    rw [bestTriple_snoc] at h ⊢
    split
    · exact ⟨g, by simp, rfl⟩
    · rename_i hnlt
      rw [if_neg hnlt] at h
      obtain ⟨fs, hmem, heq⟩ := ih h
      exact ⟨fs, List.mem_append.mpr (Or.inl hmem), heq⟩

theorem firstIdxOf?_eq_none_iff {t : Nat × Nat × Nat} {ls : List (List String)} :
    firstIdxOf? t ls = none ↔ ∀ fs ∈ ls, binRank fs ≠ t := by
  induction ls with
  | nil => simp [firstIdxOf?]
  | cons g ls ih =>
    simp only [firstIdxOf?, List.mem_cons]
    split
    · rename_i heq
      constructor
      · intro h
        cases h
      · intro h
        exact absurd heq (h g (Or.inl rfl))
    · rename_i hne
      constructor
      · intro h fs hm
        rcases hm with rfl | hm
        · exact hne
        · exact ih.mp (by simpa using h) fs hm
      · intro h
        have h2 : firstIdxOf? t ls = none := ih.mpr (fun fs hm => h fs (Or.inr hm))
        simp [h2]

theorem firstIdxOf?_snoc (t : Nat × Nat × Nat) (ls : List (List String))
    (fs : List String) :
    firstIdxOf? t (ls ++ [fs]) =
      match firstIdxOf? t ls with
      | some i => some i
      | none => if binRank fs = t then some ls.length else none := by
  induction ls with
  | nil =>
    simp only [List.nil_append, firstIdxOf?, List.length_nil]
    split <;> simp
  | cons g ls ih =>
    simp only [List.cons_append, firstIdxOf?, ih]
    by_cases hg : binRank g = t
    · simp [hg]
    · rcases h : firstIdxOf? t ls with _ | i <;>
        by_cases hf : binRank fs = t <;>
          simp [hg, h, hf, ih]

/-- The outer fold of `get_top_ranked` computes the lexicographically
largest triple together with the index of the first variant attaining it,
except that the initial accumulator `(-1, (0, 0, 0))` survives (index
`-1`) whenever no variant's triple strictly exceeds `(0, 0, 0)`. -/
theorem topRankFold_spec (ls : List (List String)) :
    topRankFold ls = (amendedTop ls, bestTriple ls) := by
  induction ls using List.reverseRecOn with
  | nil => rfl
  | append_singleton ls fs ih =>
    have henum : (ls ++ [fs]).enum = ls.enum ++ [(ls.length, fs)] := by
      rw [List.enum_append]
      rfl
    have hfold : topRankFold (ls ++ [fs]) =
        topRankStep (topRankFold ls) (ls.length, fs) := by
      unfold topRankFold
      rw [henum, List.foldl_append]
      rfl
    rw [hfold, ih]
    unfold topRankStep
    simp only
    by_cases hlt : tripleLt (bestTriple ls) (binRank fs)
    · rw [if_pos hlt]
      have hBT : bestTriple (ls ++ [fs]) = binRank fs := by
        rw [bestTriple_snoc, if_pos hlt]
      have hnz : binRank fs ≠ (0, 0, 0) := by
        intro h
        exact not_tripleLt_zero _ (h ▸ hlt)
      have hnone : firstIdxOf? (binRank fs) ls = none := by
        rw [firstIdxOf?_eq_none_iff]
        intro g hg hbe
        exact not_bestTriple_lt_mem hg (hbe ▸ hlt)
      unfold amendedTop
      rw [if_neg (hBT ▸ hnz)]
      simp only [hBT]
      rw [firstIdxOf?_snoc, hnone]
      simp
    · rw [if_neg hlt]
      have hBT : bestTriple (ls ++ [fs]) = bestTriple ls := by
        rw [bestTriple_snoc, if_neg hlt]
      unfold amendedTop
      rw [hBT]
      by_cases hz : bestTriple ls = (0, 0, 0)
      · rw [if_pos hz, if_pos hz]
      · rw [if_neg hz, if_neg hz]
        obtain ⟨g, hmem, heq⟩ := bestTriple_attained hz
        have hsome : firstIdxOf? (bestTriple ls) ls ≠ none := by
          intro hn
          exact (firstIdxOf?_eq_none_iff.mp hn g hmem) heq
        rcases h : firstIdxOf? (bestTriple ls) ls with _ | i
        · exact absurd h hsome
        · rw [firstIdxOf?_snoc, h]

/-! ## Filtering characterization and the selection claims -/

/-- An index is in the retained-indices list of `get_supported_binaries`
exactly when it indexes an entry all of whose tokens are host features. -/
theorem mem_supported_indices_iff (host : List String) (ls : List (List String))
    (j : Nat) :
    j ∈ (getSupportedBinaries host ls).1 ↔
      ∃ fs, ls[j]? = some fs ∧ ∀ t ∈ fs, t ∈ host := by
  unfold getSupportedBinaries
  rw [List.unzip_eq_map]
  simp only [List.mem_map, List.mem_filter, List.mem_enum_iff_getElem?]
  constructor
  · rintro ⟨⟨i, fs⟩, ⟨hget, hpred⟩, rfl⟩
    refine ⟨fs, hget, ?_⟩
    intro t ht
    simp only [List.all_eq_true] at hpred
    simpa using hpred t ht
  · rintro ⟨fs, hget, hall⟩
    refine ⟨(j, fs), ⟨hget, ?_⟩, rfl⟩
    simp only [List.all_eq_true]
    intro t ht
    simpa using hall t ht

/-- Claim C4: when `get_best_flavor_id` chooses a variant, every token of
the chosen entry's feature list is a host feature, and an entry is
retained by the filter exactly when all of its tokens are host features. -/
theorem chosen_variant_supported (host : List String) (ls : List (List String))
    (i : Nat) (h : getBestFlavorId host ls = .ok (some i)) :
    (∃ fs, ls[i]? = some fs ∧ ∀ t ∈ fs, t ∈ host) ∧
    (∀ j : Nat, j ∈ (getSupportedBinaries host ls).1 ↔
      ∃ fs, ls[j]? = some fs ∧ ∀ t ∈ fs, t ∈ host) := by
  refine ⟨?_, fun j => mem_supported_indices_iff host ls j⟩
  rw [← mem_supported_indices_iff]
  unfold getBestFlavorId at h
  dsimp only at h
  split at h
  · cases h
  · split at h
    · rename_i hb
      have h2 : (getSupportedBinaries host ls).1.get
          ⟨(getTopRanked (getSupportedBinaries host ls).2).toNat, hb.2⟩ = i := by
        cases h
        rfl
      rw [← h2]
      exact List.get_mem _ _ _
    · cases h

/-- Claim C3 fails on the code: with host features `{aes}` and the single
entry `["aes"]` (a token absent from the x86 ranking table), the retained
list is non-empty, `get_top_ranked` still returns `-1`, and
`get_best_flavor_id` hits the out-of-bounds index
`indices[-1 as usize]` instead of returning a valid index. -/
theorem selection_panics_on_unranked_tokens :
    (getSupportedBinaries ["aes"] [["aes"]]).1 = [0] ∧
    getTopRanked (getSupportedBinaries ["aes"] [["aes"]]).2 = -1 ∧
    getBestFlavorId ["aes"] [["aes"]] = .error () := by
  refine ⟨rfl, rfl, rfl⟩

/-- Claim C5 is false on the code in two ways.  First, the fold does not
compute the claimed triple: on the canonically ordered token list
`["avx", "sse3"]` the source fold yields `(2, 1, 1)` — the final branch
of the fold overwrites the running pair with the last ranked token's
strictly lower `(level, weight)` — while the claimed
(max level, max weight at level, count) triple is `(3, 1, 1)`.  Second,
at the input `[["aes"]]` the claimed comparison ("largest triple wins,
ties go to the earliest retained variant") would pick index 0, but
`get_top_ranked` returns `-1` because the outer fold's initial
accumulator is never beaten. -/
theorem ranking_tie_counterexample :
    binRank ["avx", "sse3"] = (2, 1, 1) ∧
    specTriple ["avx", "sse3"] = (3, 1, 1) ∧
    claimedTop [["aes"]] = 0 ∧
    getTopRanked [["aes"]] = -1 := by
  refine ⟨rfl, rfl, rfl, rfl⟩

/-- Claim C5 as amended: each token of a variant that is found in the
ranking table overwrites the fold's `(bin_level, bin_weight)` with its
own `(level, weight)` — so after the fold that pair is the one of the
variant's last table-ranked token, not the maximum — while `bin_count`
is reset to 1 when a token strictly outranks the running pair,
incremented when it equals it, and carried over when it ranks lower;
tokens absent from the table change nothing (`binRank_eq_pairSeqFold`
together with the last-pair characterization).  Variants are compared
lexicographically by their fold triples, the largest wins, and on an
exact tie the earliest retained variant keeps the top rank — except that
a variant whose triple is `(0, 0, 0)` can never win: when no variant's
triple strictly exceeds `(0, 0, 0)` the ranker returns `-1` (none). -/
theorem getTopRanked_eq_amendedTop (ls : List (List String)) (fs : List String) :
    binRank fs =
      ((pairSeqFold (rankedPairs fs)).1.1, (pairSeqFold (rankedPairs fs)).1.2,
        (pairSeqFold (rankedPairs fs)).2) ∧
    (binRank fs).1 = ((rankedPairs fs).getLast?.getD (0, 0)).1 ∧
    (binRank fs).2.1 = ((rankedPairs fs).getLast?.getD (0, 0)).2 ∧
    getTopRanked ls = amendedTop ls := by
  refine ⟨binRank_eq_pairSeqFold fs, ?_, ?_, ?_⟩
  · rw [binRank_eq_pairSeqFold fs]
    simp [pairSeqFold_fst]
  · rw [binRank_eq_pairSeqFold fs]
    simp [pairSeqFold_fst]
  · unfold getTopRanked
    rw [topRankFold_spec]

/-! ## The generated FatBin table and variant reconstruction

`Artifacts::generate_sources` (src/multiarch-dispatch/build.rs lines
83-140) and `FatBin::extract_flavor_into`
(src/multiarch-dispatch/src/binary_flavors.rs lines 129-141).  The
qbsdiff and zstd crates are external; their diff/patch and
compress/decompress functions enter as parameters, and the theorems name
the contracts they are assumed to satisfy. -/

/-- The `FatBin` structure of binary_flavors.rs lines 106-110, as emitted
by the build script. -/
structure FatBinM where
  default_exe : List Nat
  patches_features_lists : List (List String)
  patches : List (List Nat)
deriving DecidableEq

/-- Model of `Artifacts::generate_sources` (build.rs lines 83-140) after the
manifest's binaries have been read: pop the last entry as the fallback
(warning about an empty manifest), bsdiff every remaining entry against
the fallback, zstd-compress the fallback.  Each input entry is (bytes of
the built binary, its feature list); the returned Bool is the
empty-manifest warning. -/
def generateSources (bs_diff : List Nat → List Nat → List Nat)
    (zstdCompress : List Nat → List Nat)
    (bins : List (List Nat × List String)) : Bool × FatBinM :=
  let fallback_desc := bins.getLast?
  let warning := fallback_desc.isNone
  let fallback := (fallback_desc.map Prod.fst).getD []
  let rest := bins.dropLast
  (warning,
    { default_exe := zstdCompress fallback
      patches_features_lists := rest.map Prod.snd
      patches := rest.map (fun b => bs_diff fallback b.1) })

/-- Model of `FatBin::extract_flavor_into` (binary_flavors.rs lines 129-141):
`none` decompresses the fallback directly; `some id` decompresses the
fallback and applies patch `id` to it.  `Option.none` in the result
models the IO-error path (decode or patch failure) and the
out-of-bounds access `self.patches[id]`. -/
def extractFlavorInto (bs_patch : List Nat → List Nat → Option (List Nat))
    (zstdDecode : List Nat → Option (List Nat))
    (fb : FatBinM) (id : Option Nat) : Option (List Nat) :=
  match id with
  | none => zstdDecode fb.default_exe
  | some i =>
    match zstdDecode fb.default_exe with
    | none => none
    | some base =>
      match fb.patches[i]? with
      | none => none
      | some patch => bs_patch patch base

/-- Outcome of the runtime dispatcher (src/multiarch-dispatch/src/lib.rs
`dispatch` together with `main`). -/
inductive RunOutcome
  | launched (bytes : List Nat)
  | panicked
  | exitedIoClass
  | exited (code : Int)
deriving DecidableEq

/-- Model of `dispatch` (lib.rs lines 32-45) composed with `get_best_flavor`
(binary_flavors.rs lines 146-159) and `Binary::exec`
(exec_memory.rs lines 29-37): select, reconstruct into the handle, exec.
`execF bytes = none` models a successful exec (which never returns);
`execF bytes = some s` models the exec syscall returning `s` (POSIX exec
returns `-1` on failure), after which `Code::new(status).ok()` exits the
process with that status.  Handle creation (`create_writable`) is
modelled as succeeding; its failure path is an IO-class exit not
exercised by the theorems below. -/
def dispatchRun (bs_patch : List Nat → List Nat → Option (List Nat))
    (zstdDecode : List Nat → Option (List Nat))
    (execF : List Nat → Option Int)
    (host : List String) (fb : FatBinM) : RunOutcome :=
  match getBestFlavorId host fb.patches_features_lists with
  | .error _ => .panicked
  | .ok bestId =>
    match extractFlavorInto bs_patch zstdDecode fb bestId with
    | none => .exitedIoClass
    | some bytes =>
      match execF bytes with
      | none => .launched bytes
      | some status => .exited status

/-! ## The deduplicator

`Multiarch::compile_pkg_multi`, src/compile_multiarch.rs lines 290-304:
sort the built binaries by `(content digest, feature count)` and drop
consecutive entries with equal digests, keeping the first of each run. -/

/-- A built binary as the deduplicator sees it: its SHA-256 digest
(modelled numerically) and its declared feature list. -/
structure BinDesc where
  hash : Nat
  cpufeatures : List String
deriving DecidableEq

/-- The sort key of compile_multiarch.rs lines 290-298:
`h1.cmp(h2).then(len1.cmp(len2))`, as a non-strict order. -/
def binLe (a b : BinDesc) : Prop :=
  a.hash < b.hash ∨ (a.hash = b.hash ∧ a.cpufeatures.length ≤ b.cpufeatures.length)

instance (a b : BinDesc) : Decidable (binLe a b) := by
  unfold binLe; infer_instance

/-- Model of `Vec::dedup_by(|h1, h2| h1.0 == h2.0)` (compile_multiarch.rs line
300): remove each entry whose digest equals that of the previously kept
entry. -/
def dedupByHash : List BinDesc → List BinDesc
  | [] => []
  | [a] => [a]
  | a :: b :: rest =>
    if b.hash = a.hash then dedupByHash (a :: rest)
    else a :: dedupByHash (b :: rest)

/-! ## The variant policy resolver

`ConfigMultiArch` (src/cargo_config_loader.rs) and its call site in
`Multiarch::compile_pkg_multi` (src/compile_multiarch.rs lines 249-262).
The `BTreeSet` collections are modelled as lists; the rustc CPU-model
query (`Rustc::get_cpufeatures_for_programs`, an external subprocess) is
a parameter returning `Option` (its `Result` errors are silently skipped
by the `flat_map` at cargo_config_loader.rs lines 167-171). -/

/-- Model of `ConfigTargetsForArch` (cargo_config_loader.rs lines 74-80). -/
structure ConfigTargetsForArch where
  cpus : List String
  cpufeatures_lists : List (List String)
deriving DecidableEq

/-- Model of `ConfigMultiArch` (cargo_config_loader.rs lines 82-85): the target's
architecture tag and the per-architecture policy map (modelled as an
association list with unique keys). -/
structure ConfigMultiArch where
  targetArch : String
  archs : List (String × ConfigTargetsForArch)
deriving DecidableEq

/-- Lookup of `self.archs.get(arch)`. -/
def lookupArch (archs : List (String × ConfigTargetsForArch)) (a : String) :
    Option ConfigTargetsForArch :=
  (archs.find? (fun p => p.1 == a)).map (fun p => p.2)

/-- In-place update of the entry for one architecture
(`self.archs.get_mut(arch)`). -/
def updateArch (archs : List (String × ConfigTargetsForArch)) (a : String)
    (f : ConfigTargetsForArch → ConfigTargetsForArch) :
    List (String × ConfigTargetsForArch) :=
  archs.map (fun p => if p.1 == a then (p.1, f p.2) else p)

/-- Model of `ConfigMultiArch::new` (cargo_config_loader.rs lines 88-93). -/
def ConfigMultiArch.new (arch : String) : ConfigMultiArch :=
  { targetArch := arch, archs := [] }

/-- Model of `ConfigMultiArch::load_cargo_toml` (cargo_config_loader.rs lines
94-112): `none` models absent/null `multiarch` metadata, `some archs` the
deserialized per-architecture table, which replaces the map wholesale. -/
def loadCargoToml (cfg : ConfigMultiArch)
    (meta : Option (List (String × ConfigTargetsForArch))) : ConfigMultiArch :=
  match meta with
  | none => cfg
  | some archs => { cfg with archs := archs }

/-- Model of `ConfigMultiArch::override_cpus` (cargo_config_loader.rs lines
114-131): an empty override is a no-op; otherwise replace the current
architecture's `cpus`, inserting a fresh entry when absent. -/
def overrideCpus (cfg : ConfigMultiArch) (cpus : List String) : ConfigMultiArch :=
  if cpus = [] then cfg
  else
    match lookupArch cfg.archs cfg.targetArch with
    | some _ =>
      let archs2 := updateArch cfg.archs cfg.targetArch
        (fun c => { c with cpus := cpus })
      { cfg with archs := archs2 }
    | none =>
      { cfg with archs :=
          cfg.archs ++ [(cfg.targetArch, ⟨cpus, []⟩)] }

/-- Model of `ConfigMultiArch::override_features_lists` (cargo_config_loader.rs
lines 133-153): an empty override set is a no-op; otherwise replace the
current architecture's `cpufeatures_lists`, inserting a fresh entry when
absent. -/
def overrideFeaturesLists (cfg : ConfigMultiArch)
    (cpufeat_lists : List (List String)) : ConfigMultiArch :=
  if cpufeat_lists = [] then cfg
  else
    match lookupArch cfg.archs cfg.targetArch with
    | some _ =>
      let archs2 := updateArch cfg.archs cfg.targetArch
        (fun c => { c with cpufeatures_lists := cpufeat_lists })
      { cfg with archs := archs2 }
    | none =>
      { cfg with archs :=
          cfg.archs ++ [(cfg.targetArch, ⟨[], cpufeat_lists⟩)] }

/-- Lexicographic comparison of feature lists, standing in for the
`Ord` of `CpuFeatures` (a `BTreeSet<String>` compares its sorted element
sequences lexicographically). -/
def strListLe (a b : List String) : Bool :=
  match a, b with
  | [], _ => true
  | _ :: _, [] => false
  | x :: xs, y :: ys =>
    if x < y then true else if y < x then false else strListLe xs ys

/-- Sorted-insert without duplicates, modelling `BTreeSet` insertion. -/
def insertFeatSet (x : List String) : List (List String) → List (List String)
  | [] => [x]
  | y :: ys =>
    if x = y then y :: ys
    else if strListLe x y then x :: y :: ys
    else y :: insertFeatSet x ys

/-- Collecting into a `BTreeSet<CpuFeatures>`: sort and deduplicate. -/
def featSetOf (ls : List (List String)) : List (List String) :=
  ls.foldr insertFeatSet []

/-- Union of two canonical feature-set collections, as `BTreeSet::union`. -/
def featSetUnion (a b : List (List String)) : List (List String) :=
  a.foldr insertFeatSet b

/-- Model of `ConfigMultiArch::get_cpu_features` (cargo_config_loader.rs lines
160-182): expand each configured CPU model through the rustc query, and
union with the architecture's explicit feature lists when the latter are
non-empty. -/
def getCpuFeatures (cfg : ConfigMultiArch)
    (query : String → Option (List String)) : List (List String) :=
  match lookupArch cfg.archs cfg.targetArch with
  | none => []
  | some tc =>
    let features_of_cpus := featSetOf (tc.cpus.filterMap query)
    if tc.cpufeatures_lists = [] then features_of_cpus
    else featSetUnion features_of_cpus tc.cpufeatures_lists

/-- The resolver composition at the call site,
`Multiarch::compile_pkg_multi` (compile_multiarch.rs lines 249-254):
note that the CLI feature list is wrapped into the one-element set
`BTreeSet::from([override_cpufeatures])` before being passed to
`override_features_lists`, so the override argument is `[cliCpufeatures]`
even when the CLI supplied no tokens. -/
def resolveVariantPolicy (targetArch : String)
    (meta : Option (List (String × ConfigTargetsForArch)))
    (cliCpus : List String) (cliCpufeatures : List String) : ConfigMultiArch :=
  overrideFeaturesLists
    (overrideCpus (loadCargoToml (ConfigMultiArch.new targetArch) meta) cliCpus)
    [cliCpufeatures]

/-- The variant plan of `compile_pkg_multi` (compile_multiarch.rs lines
256-262): resolve the policy, then fail with the "no variants
configured" error exactly when the resulting set is empty. -/
def variantPlan (targetArch : String)
    (meta : Option (List (String × ConfigTargetsForArch)))
    (cliCpus : List String) (cliCpufeatures : List String)
    (query : String → Option (List String)) :
    Except String (List (List String)) :=
  let cpu_features :=
    getCpuFeatures (resolveVariantPolicy targetArch meta cliCpus cliCpufeatures) query
  if cpu_features = [] then
    .error "No CPU arch or CPU features configured in CLI or in Cargo.toml"
  else .ok cpu_features

/-! ## Scratch-file naming of the compiler driver

`Multiarch::compile_pkg`, src/compile_multiarch.rs lines 353-357:
`format!("bin-{}", cpu_features.iter().join("_"))` followed by
`output_path.set_extension(EXE_EXTENSION)`. -/

/-- Index of the last `.` at position at least 1, mirroring how
`Path::extension` locates the extension of a file name (a leading dot
does not start an extension). -/
def lastDotIdx (cs : List Char) : Option Nat :=
  ((cs.enum.filter (fun p => p.2 = '.' ∧ 1 ≤ p.1)).map (fun p => p.1)).getLast?

/-- Rust's `PathBuf::set_extension` on a bare file name: truncate at the
last dot (if any, not in leading position) and append the new extension
when it is non-empty. -/
def setFileExtension (name : String) (ext : String) : String :=
  let cs := name.toList
  let stem :=
    match lastDotIdx cs with
    | some i => cs.take i
    | none => cs
  String.mk (if ext = "" then stem else stem ++ ('.' :: ext.toList))

/-- The scratch file name actually computed by `compile_pkg`
(compile_multiarch.rs lines 353-357) for one feature set, with the
platform's `EXE_EXTENSION` (empty on Unix, `exe` on Windows). -/
def scratchFileName (extension : String) (feats : List String) : String :=
  setFileExtension ("bin-" ++ String.intercalate "_" feats) extension

/-- Modelled from the spec: the scratch name the specification describes,
`bin-<feat1>_<feat2>_…` with the platform-appropriate executable
extension appended. -/
def claimedScratchName (extension : String) (feats : List String) : String :=
  "bin-" ++ String.intercalate "_" feats ++
    (if extension = "" then "" else "." ++ extension)

/-! ## Deduplicator proofs -/

theorem dedupByHash_subset : ∀ (l : List BinDesc), ∀ b ∈ dedupByHash l, b ∈ l := by
  intro l
  induction l using dedupByHash.induct with
  | case1 =>
    intro x hx
    simp [dedupByHash] at hx
  | case2 a =>
    intro x hx
    simpa [dedupByHash] using hx
  | case3 a b rest heq ih =>
    intro x hx
    rw [show dedupByHash (a :: b :: rest) = dedupByHash (a :: rest) from by
      simp [dedupByHash, heq]] at hx
    rcases List.mem_cons.mp (ih x hx) with rfl | h
    · exact List.mem_cons_self _ _
    · exact List.mem_cons_of_mem _ (List.mem_cons_of_mem _ h)
  | case4 a b rest hne ih =>
    intro x hx
    rw [show dedupByHash (a :: b :: rest) = a :: dedupByHash (b :: rest) from by
      simp [dedupByHash, hne]] at hx
    rcases List.mem_cons.mp hx with rfl | h
    · exact List.mem_cons_self _ _
    · exact List.mem_cons_of_mem _ (ih x h)

theorem pairwise_hash_le {a : BinDesc} {l : List BinDesc}
    (h : (a :: l).Pairwise binLe) : ∀ x ∈ l, a.hash ≤ x.hash := by
  intro x hx
  rcases (List.pairwise_cons.mp h).1 x hx with h1 | ⟨h1, _⟩ <;> omega

/-- On a list sorted by `(digest, feature count)`, the consecutive
deduplication yields pairwise-distinct digests, and for every input entry
there is a surviving entry with the same digest and a minimal feature
count among all entries of that digest. -/
theorem dedup_sorted_spec (l : List BinDesc) :
    l.Pairwise binLe →
    (dedupByHash l).Pairwise (fun a b => a.hash ≠ b.hash) ∧
    ∀ x ∈ l, ∃ s ∈ dedupByHash l, s.hash = x.hash ∧
      ∀ y ∈ l, y.hash = x.hash → s.cpufeatures.length ≤ y.cpufeatures.length := by
  induction l using dedupByHash.induct with
  | case1 =>
    intro _
    constructor
    · simp [dedupByHash]
    · intro x hx
      cases hx
  | case2 a =>
    intro _
    constructor
    · simp [dedupByHash]
    · intro x hx
      have hxa : x = a := by simpa using hx
      subst hxa
      refine ⟨x, by simp [dedupByHash], rfl, ?_⟩
      intro y hy _
      have hya : y = x := by simpa using hy
      subst hya
      exact le_refl _
  | case3 a b rest heq ih =>
    intro hs
    have hd : dedupByHash (a :: b :: rest) = dedupByHash (a :: rest) := by
      simp [dedupByHash, heq]
    have hab : binLe a b := (List.pairwise_cons.mp hs).1 b (by simp)
    have halen : a.cpufeatures.length ≤ b.cpufeatures.length := by
      rcases hab with h1 | ⟨h1, h2⟩
      · omega
      · exact h2
    have hs2 : (a :: rest).Pairwise binLe := by
      rcases List.pairwise_cons.mp hs with ⟨hab2, hrest⟩
      rcases List.pairwise_cons.mp hrest with ⟨hbx, hrest2⟩
      exact List.pairwise_cons.mpr
        ⟨fun x hx => hab2 x (List.mem_cons_of_mem _ hx), hrest2⟩
    obtain ⟨hpw, hcov⟩ := ih hs2
    rw [hd]
    refine ⟨hpw, ?_⟩
    intro x hx
    rcases List.mem_cons.mp hx with rfl | hx2
    · obtain ⟨s, hsmem, hsh, hmin⟩ := hcov x (by simp)
      refine ⟨s, hsmem, hsh, ?_⟩
      intro y hy hyh
      rcases List.mem_cons.mp hy with rfl | hy2
      · exact hmin y (by simp) hyh
      rcases List.mem_cons.mp hy2 with rfl | hy3
      · exact le_trans (hmin x (by simp) rfl) halen
      · exact hmin y (by simp [hy3]) hyh
    rcases List.mem_cons.mp hx2 with rfl | hx3
    · obtain ⟨s, hsmem, hsh, hmin⟩ := hcov a (by simp)
      refine ⟨s, hsmem, hsh.trans heq.symm, ?_⟩
      intro y hy hyh
      have hya : y.hash = a.hash := hyh.trans heq
      rcases List.mem_cons.mp hy with rfl | hy2
      · exact hmin y (by simp) hya
      rcases List.mem_cons.mp hy2 with rfl | hy3
      · exact le_trans (hmin a (by simp) rfl) halen
      · exact hmin y (by simp [hy3]) hya
    · obtain ⟨s, hsmem, hsh, hmin⟩ := hcov x (by simp [hx3])
      refine ⟨s, hsmem, hsh, ?_⟩
      intro y hy hyh
      rcases List.mem_cons.mp hy with rfl | hy2
      · exact hmin y (by simp) hyh
      rcases List.mem_cons.mp hy2 with rfl | hy3
      · have hxa : a.hash = x.hash := heq.symm.trans hyh
        exact le_trans (hmin a (by simp) hxa) halen
      · exact hmin y (by simp [hy3]) hyh
  | case4 a b rest hne ih =>
    intro hs
    have hd : dedupByHash (a :: b :: rest) = a :: dedupByHash (b :: rest) := by
      simp [dedupByHash, hne]
    have hab : binLe a b := (List.pairwise_cons.mp hs).1 b (by simp)
    have haltb : a.hash < b.hash := by
      rcases hab with h1 | ⟨h1, _⟩
      · exact h1
      · exact absurd h1.symm hne
    have hs2 : (b :: rest).Pairwise binLe := (List.pairwise_cons.mp hs).2
    have hlt_all : ∀ x ∈ b :: rest, a.hash < x.hash := by
      intro x hx
      rcases List.mem_cons.mp hx with rfl | hx2
      · exact haltb
      · have := pairwise_hash_le hs2 x hx2
        omega
    obtain ⟨hpw, hcov⟩ := ih hs2
    rw [hd]
    constructor
    · refine List.pairwise_cons.mpr ⟨?_, hpw⟩
      intro s hsmem
      have := hlt_all s (dedupByHash_subset _ s hsmem)
      omega
    · intro x hx
      rcases List.mem_cons.mp hx with rfl | hx2
      · refine ⟨x, by simp, rfl, ?_⟩
        intro y hy hyh
        rcases List.mem_cons.mp hy with rfl | hy2
        · exact le_refl _
        · have := hlt_all y hy2
          omega
      · obtain ⟨s, hsmem, hsh, hmin⟩ := hcov x hx2
        refine ⟨s, List.mem_cons_of_mem _ hsmem, hsh, ?_⟩
        intro y hy hyh
        rcases List.mem_cons.mp hy with rfl | hy2
        · have := hlt_all x hx2
          omega
        · exact hmin y hy2 hyh

/-- Claim C7: after sorting the built variants by
`(content digest, feature count)` (any order consistent with that key —
the source uses `sort_unstable_by`) and dropping consecutive digest
duplicates, no two surviving entries share a digest, every survivor is an
input entry, and every input digest is represented by a survivor whose
feature count is minimal among the input entries with that digest. -/
theorem dedup_no_dup_digest (l sorted : List BinDesc)
    (hperm : sorted.Perm l) (hsorted : sorted.Pairwise binLe) :
    (dedupByHash sorted).Pairwise (fun a b => a.hash ≠ b.hash) ∧
    (∀ s ∈ dedupByHash sorted, s ∈ l) ∧
    (∀ x ∈ l, ∃ s ∈ dedupByHash sorted, s.hash = x.hash ∧
      ∀ y ∈ l, y.hash = x.hash → s.cpufeatures.length ≤ y.cpufeatures.length) := by
  obtain ⟨hpw, hcov⟩ := dedup_sorted_spec sorted hsorted
  refine ⟨hpw, ?_, ?_⟩
  · intro s hsmem
    exact hperm.mem_iff.mp (dedupByHash_subset _ s hsmem)
  · intro x hx
    obtain ⟨s, hsmem, hsh, hmin⟩ := hcov x (hperm.mem_iff.mpr hx)
    exact ⟨s, hsmem, hsh, fun y hy hyh => hmin y (hperm.mem_iff.mpr hy) hyh⟩

/-- Witness for C7 at a concrete manifest: two variants share digest 5
(feature counts 1 and 0) and one has digest 7. -/
theorem dedup_no_dup_digest_witness :
    (dedupByHash [⟨5, []⟩, ⟨5, ["avx"]⟩, ⟨7, ["a"]⟩]).Pairwise
      (fun a b => a.hash ≠ b.hash) ∧
    (∀ s ∈ dedupByHash [⟨5, []⟩, ⟨5, ["avx"]⟩, ⟨7, ["a"]⟩],
      s ∈ [(⟨5, ["avx"]⟩ : BinDesc), ⟨5, []⟩, ⟨7, ["a"]⟩]) ∧
    (∀ x ∈ [(⟨5, ["avx"]⟩ : BinDesc), ⟨5, []⟩, ⟨7, ["a"]⟩],
      ∃ s ∈ dedupByHash [⟨5, []⟩, ⟨5, ["avx"]⟩, ⟨7, ["a"]⟩], s.hash = x.hash ∧
        ∀ y ∈ [(⟨5, ["avx"]⟩ : BinDesc), ⟨5, []⟩, ⟨7, ["a"]⟩],
          y.hash = x.hash → s.cpufeatures.length ≤ y.cpufeatures.length) :=
  dedup_no_dup_digest [⟨5, ["avx"]⟩, ⟨5, []⟩, ⟨7, ["a"]⟩]
    [⟨5, []⟩, ⟨5, ["avx"]⟩, ⟨7, ["a"]⟩] (by decide) (by decide)

/-- Witness for C4 at a concrete input: host `{avx}`, one entry
`["avx"]`; the dispatcher chooses index 0 and its tokens are host
features. -/
theorem chosen_variant_supported_witness :
    (∃ fs, ([["avx"]] : List (List String))[0]? = some fs ∧
      ∀ t ∈ fs, t ∈ ["avx"]) ∧
    (∀ j : Nat, j ∈ (getSupportedBinaries ["avx"] [["avx"]]).1 ↔
      ∃ fs, ([["avx"]] : List (List String))[j]? = some fs ∧
        ∀ t ∈ fs, t ∈ ["avx"]) :=
  chosen_variant_supported ["avx"] [["avx"]] 0 rfl

/-! ## Policy resolver claims -/

/-- Claim C1 fails on the code: with an empty CLI `cpus` and an empty CLI
`cpufeatures`, the target architecture's `cpufeatures_lists` is replaced
by the singleton `{∅}` — the call site wraps the empty CLI feature list
into a one-element set, so the empty-override guard of
`override_features_lists` never fires and the metadata lists are
clobbered. -/
theorem cli_noop_clobbers_metadata_lists :
    (resolveVariantPolicy "x86_64" (some [("x86_64", ⟨[], [["avx"]]⟩)]) [] []).archs
      = [("x86_64", ⟨[], [[]]⟩)] ∧
    (resolveVariantPolicy "x86_64" (some [("x86_64", ⟨[], [["avx"]]⟩)]) [] []).archs
      ≠ [("x86_64", ⟨[], [["avx"]]⟩)] := by
  refine ⟨rfl, by decide⟩

/-- Claim C2: the "no variants configured" error fires exactly when the
resolved set is empty (first conjunct) — but with no CLI overrides and no
`multiarch` metadata the resolved set is the singleton `{∅}`, not empty,
so the error is not raised and a single fallback build proceeds (second
and third conjuncts). -/
theorem no_variants_error_never_fires :
    (∀ (arch : String) (meta : Option (List (String × ConfigTargetsForArch)))
        (cliCpus : List String) (cliFeats : List String)
        (query : String → Option (List String)),
      (∃ e, variantPlan arch meta cliCpus cliFeats query = .error e) ↔
        getCpuFeatures (resolveVariantPolicy arch meta cliCpus cliFeats) query = []) ∧
    getCpuFeatures (resolveVariantPolicy "x86_64" none [] []) (fun _ => none)
      = [[]] ∧
    variantPlan "x86_64" none [] [] (fun _ => none) = .ok [[]] := by
  refine ⟨?_, rfl, rfl⟩
  intro arch meta cliCpus cliFeats query
  by_cases hc :
      getCpuFeatures (resolveVariantPolicy arch meta cliCpus cliFeats) query = [] <;>
    simp [variantPlan, hc]

/-! ## Scratch-file naming claim -/

/-- Claim C8 fails on the code: `set_extension` replaces everything after
the last dot of the computed file name, so the distinct feature sets
`{sse4.1}` and `{sse4.2}` map to the same scratch file name on both Unix
(`bin-sse4`) and Windows (`bin-sse4.exe`), and the Unix name differs from
the specified `bin-sse4.1`. -/
theorem scratch_name_collision :
    scratchFileName "" ["sse4.1"] = "bin-sse4" ∧
    scratchFileName "" ["sse4.2"] = "bin-sse4" ∧
    scratchFileName "exe" ["sse4.1"] = "bin-sse4.exe" ∧
    scratchFileName "exe" ["sse4.2"] = "bin-sse4.exe" ∧
    scratchFileName "" ["sse4.1"] ≠ claimedScratchName "" ["sse4.1"] ∧
    claimedScratchName "" ["sse4.1"] ≠ claimedScratchName "" ["sse4.2"] := by
  decide

/-! ## Patch round-trip claim -/

/-- Claim C9: provided bsdiff patches invert diffs
(`apply (diff a b) a = b`) and zstd decompression inverts compression —
the contracts of the external qbsdiff and zstd crates — reconstructing
any chosen non-fallback variant from the generated FatBin table (apply
the stored patch to the decompressed compressed fallback) returns exactly
the original variant's bytes. -/
theorem patch_roundtrip
    (bs_diff : List Nat → List Nat → List Nat)
    (bs_patch : List Nat → List Nat → Option (List Nat))
    (zstdCompress : List Nat → List Nat)
    (zstdDecode : List Nat → Option (List Nat))
    (hpatch : ∀ a b, bs_patch (bs_diff a b) a = some b)
    (hzstd : ∀ a, zstdDecode (zstdCompress a) = some a)
    (bins : List (List Nat × List String)) (i : Nat) (v : List Nat × List String)
    (hv : bins.dropLast[i]? = some v) :
    extractFlavorInto bs_patch zstdDecode
      (generateSources bs_diff zstdCompress bins).2 (some i) = some v.1 := by
  have hfb := hzstd ((Option.map Prod.fst bins.getLast?).getD [])
  have hpget : (bins.dropLast.map
        (fun b => bs_diff ((Option.map Prod.fst bins.getLast?).getD []) b.1))[i]?
      = some (bs_diff ((Option.map Prod.fst bins.getLast?).getD []) v.1) := by
    rw [List.getElem?_map, hv]
    rfl
  unfold generateSources extractFlavorInto
  dsimp only
  rw [hfb, hpget]
  exact hpatch _ _

/-- Witness for C9 at concrete codecs and a concrete two-variant run. -/
theorem patch_roundtrip_witness :
    extractFlavorInto (fun p _ => some p) (fun a => some a)
      (generateSources (fun _ b => b) (fun a => a)
        [([1, 2], ["avx"]), ([0], [])]).2 (some 0) = some [1, 2] :=
  patch_roundtrip (fun _ b => b) (fun p _ => some p) (fun a => a)
    (fun a => some a) (fun _ _ => rfl) (fun _ => rfl)
    [([1, 2], ["avx"]), ([0], [])] 0 ([1, 2], ["avx"]) rfl

/-! ## Empty-image claims -/

/-- Claim C10 fails on the code at runtime: from the empty FatBinImage
the dispatcher selects no variant, decompresses the empty fallback
successfully, and the exec syscall fails, so the process exits with the
status the exec path produced (`-1`), which is not the software-error
sysexit code 70. -/
theorem empty_image_exit_counterexample :
    (generateSources (fun _ b => b) (fun a => a) []).1 = true ∧
    dispatchRun (fun p _ => some p) (fun a => some a) (fun _ => some (-1)) ["sse3"]
      (generateSources (fun _ b => b) (fun a => a) []).2 = .exited (-1) ∧
    RunOutcome.exited (-1) ≠ RunOutcome.exited 70 := by
  refine ⟨rfl, rfl, by decide⟩

/-- Claim C10 as amended: the empty manifest produces the build warning
and an empty FatBinImage; at runtime, assuming zstd round-trips the empty
byte string and the exec syscall fails on the empty reconstructed binary
returning `-1` (POSIX), the dispatcher exits with that status, not with a
sysexit code. -/
theorem empty_manifest_warns_and_exec_fails
    (bs_diff : List Nat → List Nat → List Nat)
    (bs_patch : List Nat → List Nat → Option (List Nat))
    (zstdCompress : List Nat → List Nat)
    (zstdDecode : List Nat → Option (List Nat))
    (execF : List Nat → Option Int) (host : List String)
    (hz : zstdDecode (zstdCompress []) = some [])
    (hexec : execF [] = some (-1)) :
    (generateSources bs_diff zstdCompress []).1 = true ∧
    (generateSources bs_diff zstdCompress []).2.patches_features_lists = [] ∧
    dispatchRun bs_patch zstdDecode execF host
      (generateSources bs_diff zstdCompress []).2 = .exited (-1) := by
  refine ⟨rfl, rfl, ?_⟩
  have h0 : getBestFlavorId host
      (generateSources bs_diff zstdCompress []).2.patches_features_lists
      = .ok none := rfl
  have h1 : extractFlavorInto bs_patch zstdDecode
      (generateSources bs_diff zstdCompress []).2 none = some [] := by
    simpa [extractFlavorInto, generateSources] using hz
  unfold dispatchRun
  rw [h0]
  dsimp only
  rw [h1]
  dsimp only
  rw [hexec]

/-- Witness for the amended C10 at concrete codecs and exec model. -/
theorem empty_manifest_warns_witness :
    (generateSources (fun _ b => b) (fun a => a) []).1 = true ∧
    (generateSources (fun _ b => b) (fun a => a) []).2.patches_features_lists
      = [] ∧
    dispatchRun (fun p _ => some p) (fun a => some a) (fun _ => some (-1))
      ["avx"] (generateSources (fun _ b => b) (fun a => a) []).2
      = .exited (-1) :=
  empty_manifest_warns_and_exec_fails (fun _ b => b) (fun p _ => some p)
    (fun a => a) (fun a => some a) (fun _ => some (-1)) ["avx"] rfl rfl

end Multiarch




